import Mathlib

/-!
Verification of the core subsystems of `smartgallery.py`
(smart-social-gallery-poster): the sync diff engine, the sync pass's
catalog-write sequence, the balanced-brace workflow scanner and
classifier, the workflow extractor's search order, the thumbnail cache
key and renderer, and the folder-key base64 round trip.

The Python source is shallowly embedded: Python dicts become
association lists, floats (mtimes) become rationals, byte strings and
text become `List Char` (UTF-8 decoding with `errors='ignore'` is
modelled as working on the decoded character sequence directly), and
fallible operations return `Option`.
-/

namespace SmartGallery

/-! ## Sync Diff Engine (`full_sync_database`, `sync_folder_on_demand`)

`disk_files` and `db_files` are Python dicts mapping absolute path to
mtime; we embed them as association lists `List (Path × ℚ)` whose key
lists are duplicate-free (Python dict keys are unique).  Python's
`int()` on a float truncates toward zero; mtimes are rationals here. -/

abbrev Path := String

/-- Python `int(x)` on a number: truncation toward zero
(`Int.tdiv` is T-division, i.e. division rounding toward zero). -/
def pyint (q : ℚ) : ℤ := Int.tdiv q.num q.den

/-- A Python dict `path -> mtime`, embedded as an association list. -/
abbrev FMap := List (Path × ℚ)

/-- The dict's key set (`db_files.keys()` / `set(...)`). -/
def mkeys (m : FMap) : List Path := m.map Prod.fst

/-- `m.get(p, 0)`: lookup with default `0`, as used by the mtime
comparison in `full_sync_database`. -/
def getD (m : FMap) (p : Path) : ℚ := (m.lookup p).getD 0

/-- `to_add = disk_paths - db_paths` (smartgallery.py line 1191). -/
def to_add (disk db : FMap) : List Path :=
  (mkeys disk).filter (fun p => decide (p ∉ mkeys db))

/-- `to_delete = db_paths - disk_paths` (line 1190). -/
def to_delete (disk db : FMap) : List Path :=
  (mkeys db).filter (fun p => decide (p ∉ mkeys disk))

/-- `to_check = disk_paths & db_paths` (line 1192). -/
def to_check (disk db : FMap) : List Path :=
  (mkeys disk).filter (fun p => decide (p ∈ mkeys db))

/-- `to_update = {path for path in to_check if int(disk_files.get(path, 0))
> int(db_files.get(path, 0))}` (line 1193; `sync_folder_on_demand` line
1251 is the same comparison with direct indexing, which agrees on
present keys). -/
def to_update (disk db : FMap) : List Path :=
  (to_check disk db).filter (fun p => decide (pyint (getD db p) < pyint (getD disk p)))

/-! ## Sync pass: worker dispatch and catalog writes

`full_sync_database` builds `files_to_process = list(to_add | to_update)`,
runs `process_single_file` on each (a failed worker returns `None`, is
logged and contributes nothing), batches the successful results into
`INSERT OR REPLACE` statements, and only afterwards issues the
`DELETE FROM files WHERE path = ?` statements for `to_delete`
(lines 1195-1229; `sync_folder_on_demand` lines 1257-1289 has the same
upserts-then-deletes order).  A worker result row is embedded as the
fields relevant here (`path`, `mtime`); `id` is an injective digest of
the path, so upserts are keyed by path.  The result-collection order of
the process pool is not semantically significant (writes are keyed);
it is modelled as submission order, and batching into `BATCH_SIZE`
chunks, which preserves order, is flattened. -/

/-- The projection of one `process_single_file` result row used by the
sync logic: the file's path and its (re-statted) mtime. -/
structure FileRec where
  path : Path
  mtime : ℚ
  deriving DecidableEq

/-- One catalog write of a sync pass: an `INSERT OR REPLACE` keyed on
the path's digest, or a `DELETE ... WHERE path = ?`. -/
inductive DbOp where
  | upsert (r : FileRec)
  | delete (p : Path)
  deriving DecidableEq

/-- `files_to_process = list(to_add.union(to_update))` (line 1195). -/
def files_to_process (disk db : FMap) : List Path :=
  to_add disk db ++ to_update disk db

/-- The ordered sequence of catalog writes issued by one sync pass:
upserts of the successful worker results first, deletions last
(lines 1216-1229). -/
def fullSyncOps (worker : Path → Option FileRec) (disk db : FMap) : List DbOp :=
  ((files_to_process disk db).filterMap worker).map DbOp.upsert
    ++ (to_delete disk db).map DbOp.delete

def isDeleteOp : DbOp → Bool
  | .delete _ => true
  | .upsert _ => false

/-- The discipline the claim asserts: every delete precedes every
upsert (equivalently: after the leading block of deletes no delete
occurs). -/
def deletes_before_upserts (ops : List DbOp) : Bool :=
  !((ops.dropWhile isDeleteOp).any isDeleteOp)

/-- The discipline the code actually follows: every upsert precedes
every delete. -/
def upserts_before_deletes (ops : List DbOp) : Bool :=
  !((ops.dropWhile (fun o => !isDeleteOp o)).any (fun o => !isDeleteOp o))

/-- `INSERT OR REPLACE` on the `files` table: replace the row with this
path if present, otherwise insert a new row. -/
def upsertRec (db : FMap) (r : FileRec) : FMap :=
  if r.path ∈ mkeys db then
    db.map (fun e => if e.1 = r.path then (e.1, r.mtime) else e)
  else db ++ [(r.path, r.mtime)]

/-- Apply one catalog write to the catalog state. -/
def applyOp (db : FMap) : DbOp → FMap
  | .upsert r => upsertRec db r
  | .delete p => db.filter (fun e => decide (e.1 ≠ p))

def applyOps (db : FMap) (ops : List DbOp) : FMap := ops.foldl applyOp db

/-- The catalog state after a full sync pass. -/
def dbAfterFullSync (worker : Path → Option FileRec) (disk db : FMap) : FMap :=
  applyOps db (fullSyncOps worker disk db)

/-- The glob check `glob.glob(os.path.join(THUMBNAIL_CACHE_DIR,
f"(file_hash).*"))` of `process_single_file` line 1027 and
`serve_thumbnail` line 2924: is any artifact named `hash.<ext>`
present in the cache directory? -/
def hasArtifact (cache : List String) (fileHash : String) : Bool :=
  cache.any (fun name => (fileHash ++ ".").data.isPrefixOf name.data)

/-- The set of work-list paths for which a sync pass actually renders a
thumbnail: `create_thumbnail` is invoked only for processed paths whose
cache key has no existing artifact (line 1027-1028). -/
def syncPassRenders (hashOf : Path → String) (cache : List String)
    (disk db : FMap) : List Path :=
  (files_to_process disk db).filter (fun p => !hasArtifact cache (hashOf p))

/-! ## Thumbnail cache key, glob guard and renderer file operations

`process_single_file` line 1025 and `serve_thumbnail` line 2923 both
compute `file_hash = hashlib.md5((filepath + str(mtime)).encode()).hexdigest()`.
The md5 hex digest is modelled as an arbitrary injective digest function
(an ideal collision-free hash); `str(mtime)` is injective on floats
(`repr` round-trips), so distinct mtimes are modelled as distinct
mtime strings. -/

/-- The digest input `filepath + str(mtime)`: only the path and the
mtime string enter the key — never the file's content. -/
def thumbKeyInput (filepath mtimeStr : String) : String := filepath ++ mtimeStr

/-- `file_hash_for_thumbnail = md5(filepath + str(mtime)).hexdigest()`. -/
def file_hash_for_thumbnail (md5hex : String → String)
    (filepath mtimeStr : String) : String :=
  md5hex (thumbKeyInput filepath mtimeStr)

/-- The cache filename `f"(file_hash).(ext)"` inside `THUMBNAIL_CACHE_DIR`. -/
def thumbCacheFilename (md5hex : String → String)
    (filepath mtimeStr ext : String) : String :=
  file_hash_for_thumbnail md5hex filepath mtimeStr ++ "." ++ ext

/-- The render guard shared by `process_single_file` (lines 1027-1028)
and `serve_thumbnail` (lines 2924-2930): `create_thumbnail` is invoked
only when the glob for `(file_hash).*` finds nothing.  `cache` is the
cache directory as an association list filename-to-content; `render` is
`create_thumbnail`'s effect on it.  Returns the resulting directory
state and whether `create_thumbnail` was invoked. -/
def thumbnailStep (cache : List (String × ℕ)) (fileHash : String)
    (render : List (String × ℕ) → List (String × ℕ)) :
    List (String × ℕ) × Bool :=
  if hasArtifact (cache.map Prod.fst) fileHash then (cache, false)
  else (render cache, true)

/-- A filesystem operation in the thumbnail cache directory. -/
inductive FsOp where
  | write (name : String)
  | rename (src dst : String)
  deriving DecidableEq

/-- The cache-directory file operations performed by `create_thumbnail`
(lines 950-1015).  The Boolean parameters are the branch outcomes of
the Python code: whether `Image.open` succeeds, whether the image
`is_animated`, whether its format is GIF, whether any frames survive,
and whether a video frame could be read.  Every produced artifact is
written by a single `img.save(cache_path, ...)` directly at the final
cache filename — the code contains no temporary name and no rename. -/
def create_thumbnail_fsOps (file_hash file_type thumbnail_format : String)
    (imgOpenOk isAnimated fmtIsGif framesNonempty videoFrameOk : Bool) :
    List FsOp :=
  let thumb_fmt := if thumbnail_format = "webp" ∨ thumbnail_format = "jpeg"
    then thumbnail_format else "webp"
  let thumb_ext := if thumb_fmt = "webp" then "webp" else "jpeg"
  if file_type = "image" ∨ file_type = "animated_image" then
    if imgOpenOk then
      if file_type = "animated_image" ∧ isAnimated then
        let anim_fmt := if fmtIsGif then "gif" else "webp"
        if framesNonempty then [FsOp.write (file_hash ++ "." ++ anim_fmt)]
        else []
      else [FsOp.write (file_hash ++ "." ++ thumb_ext)]
    else []
  else if file_type = "video" then
    if videoFrameOk then [FsOp.write (file_hash ++ "." ++ thumb_ext)]
    else []
  else []

/-- The write-to-temp-then-rename discipline the claim asserts: no
write ever targets the final artifact name (it may only appear as a
rename destination). -/
def writes_only_temp_names (ops : List FsOp) (finalName : String) : Bool :=
  ops.all (fun op => match op with
    | .write n => !(n == finalName)
    | .rename _ _ => true)

/-! ## JSON documents and `json.loads`

`_validate_and_get_workflow` and the balanced-brace scanner both rely
on `json.loads`.  We embed a strict JSON parser over `List Char`
(`decode('utf-8', errors='ignore')` is modelled by working on decoded
text).  Numeric literals are kept as their raw character sequences —
the workflow classifier never inspects numeric values.  Python
extensions irrelevant to the claims (NaN/Infinity literals, surrogate
pair combination) are not modelled; duplicate object keys are kept in
order and key lookup takes the last occurrence, as a Python dict built
by `json.loads` does. -/

inductive JVal where
  | jnull
  | jbool (b : Bool)
  | jnum (raw : List Char)
  | jstr (s : List Char)
  | jarr (elems : List JVal)
  | jobj (members : List (List Char × JVal))

def isJsonWs (c : Char) : Bool :=
  c = ' ' ∨ c = '\t' ∨ c = '\n' ∨ c = '\r'

def skipWs : List Char → List Char
  | [] => []
  | c :: rest => if isJsonWs c then skipWs rest else c :: rest

def hexVal (c : Char) : Option Nat :=
  if '0' ≤ c ∧ c ≤ '9' then some (c.toNat - 48)
  else if 'a' ≤ c ∧ c ≤ 'f' then some (c.toNat - 87)
  else if 'A' ≤ c ∧ c ≤ 'F' then some (c.toNat - 55)
  else none

/-- JSON string body after the opening quote: returns the decoded
content and the remainder after the closing quote.  Strict mode:
unescaped control characters are rejected, as `json.loads` does. -/
def parseStringBody : List Char → Option (List Char × List Char)
  | [] => none
  | c :: rest =>
    if c = '"' then some ([], rest)
    else if c = '\\' then
      match rest with
      | [] => none
      | e :: rest2 =>
        if e = 'u' then
          match rest2 with
          | h1 :: h2 :: h3 :: h4 :: rest3 =>
            match hexVal h1, hexVal h2, hexVal h3, hexVal h4 with
            | some a, some b, some c2, some d =>
              match parseStringBody rest3 with
              | some (s, rem) =>
                  some (Char.ofNat (((a * 16 + b) * 16 + c2) * 16 + d) :: s, rem)
              | none => none
            | _, _, _, _ => none
          | _ => none
        else
          match (match e with
            | '"' => some '"'
            | '\\' => some '\\'
            | '/' => some '/'
            | 'b' => some (Char.ofNat 8)
            | 'f' => some (Char.ofNat 12)
            | 'n' => some '\n'
            | 'r' => some '\r'
            | 't' => some '\t'
            | _ => none) with
          | some d =>
            match parseStringBody rest2 with
            | some (s, rem) => some (d :: s, rem)
            | none => none
          | none => none
    else if c.toNat < 32 then none
    else
      match parseStringBody rest with
      | some (s, rem) => some (c :: s, rem)
      | none => none

/-- Longest digit prefix. -/
def spanDigits : List Char → List Char × List Char
  | [] => ([], [])
  | c :: rest =>
    if c.isDigit then
      let (ds, rem) := spanDigits rest
      (c :: ds, rem)
    else ([], c :: rest)

/-- JSON number literal: `-? (0 | [1-9][0-9]*) frac? exp?`; returns the
literal's characters and the remainder. -/
def parseNumberLit (s : List Char) : Option (List Char × List Char) :=
  let (sign, s1) : List Char × List Char :=
    match s with
    | '-' :: r => (['-'], r)
    | _ => ([], s)
  match s1 with
  | [] => none
  | c :: rest =>
    if ¬ c.isDigit then none
    else
      let (ipart, s2) : List Char × List Char :=
        if c = '0' then (['0'], rest)
        else
          let (ds, rem) := spanDigits rest
          (c :: ds, rem)
      let fracRes : Option (List Char × List Char) :=
        match s2 with
        | '.' :: r =>
          match spanDigits r with
          | ([], _) => none
          | (ds, rem) => some ('.' :: ds, rem)
        | _ => some ([], s2)
      match fracRes with
      | none => none
      | some (fpart, s3) =>
        let expRes : Option (List Char × List Char) :=
          match s3 with
          | e :: r =>
            if e = 'e' ∨ e = 'E' then
              let (esign, r2) : List Char × List Char :=
                match r with
                | '+' :: rr => (['+'], rr)
                | '-' :: rr => (['-'], rr)
                | _ => ([], r)
              match spanDigits r2 with
              | ([], _) => none
              | (ds, rem) => some (e :: (esign ++ ds), rem)
            else some ([], s3)
          | [] => some ([], s3)
        match expRes with
        | none => none
        | some (epart, s4) => some (sign ++ ipart ++ fpart ++ epart, s4)

mutual

def parseVal : Nat → List Char → Option (JVal × List Char)
  | 0, _ => none
  | fuel+1, s =>
    match s with
    | [] => none
    | c :: rest =>
      if c = '\x7b' then parseMembersStart fuel (skipWs rest)
      else if c = '[' then parseElemsStart fuel (skipWs rest)
      else if c = '"' then
        match parseStringBody rest with
        | some (str, rem) => some (.jstr str, rem)
        | none => none
      else if c = 'n' then
        match rest with
        | 'u' :: 'l' :: 'l' :: r => some (.jnull, r)
        | _ => none
      else if c = 't' then
        match rest with
        | 'r' :: 'u' :: 'e' :: r => some (.jbool true, r)
        | _ => none
      else if c = 'f' then
        match rest with
        | 'a' :: 'l' :: 's' :: 'e' :: r => some (.jbool false, r)
        | _ => none
      else
        match parseNumberLit (c :: rest) with
        | some (lit, rem) => some (.jnum lit, rem)
        | none => none

def parseMembersStart : Nat → List Char → Option (JVal × List Char)
  | 0, _ => none
  | fuel+1, s =>
    match s with
    | '\x7d' :: rest => some (.jobj [], rest)
    | _ => parseMembers fuel s []

def parseMembers : Nat → List Char → List (List Char × JVal) →
    Option (JVal × List Char)
  | 0, _, _ => none
  | fuel+1, s, acc =>
    match s with
    | '"' :: rest =>
      match parseStringBody rest with
      | some (key, rem1) =>
        match skipWs rem1 with
        | ':' :: rem2 =>
          match parseVal fuel (skipWs rem2) with
          | some (v, rem3) =>
            match skipWs rem3 with
            | ',' :: rem4 => parseMembers fuel (skipWs rem4) (acc ++ [(key, v)])
            | '\x7d' :: rem4 => some (.jobj (acc ++ [(key, v)]), rem4)
            | _ => none
          | none => none
        | _ => none
      | none => none
    | _ => none

def parseElemsStart : Nat → List Char → Option (JVal × List Char)
  | 0, _ => none
  | fuel+1, s =>
    match s with
    | ']' :: rest => some (.jarr [], rest)
    | _ => parseElems fuel s []

def parseElems : Nat → List Char → List JVal → Option (JVal × List Char)
  | 0, _, _ => none
  | fuel+1, s, acc =>
    match parseVal fuel s with
    | some (v, rem) =>
      match skipWs rem with
      | ',' :: rem2 => parseElems fuel (skipWs rem2) (acc ++ [v])
      | ']' :: rem2 => some (.jarr (acc ++ [v]), rem2)
      | _ => none
    | none => none

end

/-- `json.loads`: parse with whitespace allowed around the document and
require the whole input to be consumed.  The fuel bounds the call
depth; each 4 levels of the call tree consume at least one character,
so `4 * length + 4` is adequate for every input. -/
def json_loads (s : List Char) : Option JVal :=
  match parseVal (4 * s.length + 4) (skipWs s) with
  | some (v, rem) => if (skipWs rem).isEmpty then some v else none
  | none => none

/-! ## Workflow classification (`_validate_and_get_workflow`) -/

inductive WfType where
  | ui
  | api
  deriving DecidableEq

/-- Python dict key lookup for an object parsed by `json.loads`:
duplicate keys are overwritten in order, so the last occurrence wins. -/
def jGet (kvs : List (List Char × JVal)) (k : List Char) : Option JVal :=
  match kvs with
  | [] => none
  | (k', v) :: rest =>
    match jGet rest k with
    | some r => some r
    | none => if k' = k then some v else none

def hasKey (kvs : List (List Char × JVal)) (k : List Char) : Bool :=
  kvs.any (fun kv => kv.1 == k)

/-- The `workflow`/`prompt` unwrapping of `_validate_and_get_workflow`
(lines 670-689): a wrapper value is used when it is a dict, or a string
that parses as a dict; anything else is ignored. -/
def asDictObj (v : JVal) : Option (List (List Char × JVal)) :=
  match v with
  | .jobj kvs => some kvs
  | .jstr s =>
    match json_loads s with
    | some (.jobj kvs) => some kvs
    | _ => none
  | _ => none

/-- `_validate_and_get_workflow` (lines 662-712): parse, unwrap a
`workflow` or `prompt` wrapper, fall back to the document itself, then
classify: an object with a `nodes` key is "ui"; an object some of
whose values are objects containing a `class_type` key is "api";
anything else (including any non-object document, where the Python
membership tests and subscripts either miss or raise into the catch-all
handler) yields no workflow.  The returned document is the classified
object (`json.dumps` of it in the Python). -/
def validate_and_get_workflow (s : List Char) : Option (JVal × WfType) :=
  match json_loads s with
  | none => none
  | some data =>
    match data with
    | .jobj kvs =>
      let wd : List (List Char × JVal) :=
        match (jGet kvs ("workflow".toList)).bind asDictObj with
        | some o => o
        | none =>
          match (jGet kvs ("prompt".toList)).bind asDictObj with
          | some o => o
          | none => kvs
      if hasKey wd ("nodes".toList) then some (.jobj wd, WfType.ui)
      else if wd.any (fun kv =>
          match kv.2 with
          | .jobj inner => hasKey inner ("class_type".toList)
          | _ => false) then some (.jobj wd, WfType.api)
      else none
    | _ => none

/-! ## Balanced-brace scanner (`_scan_bytes_for_workflow`, lines 714-754) -/

/-- `stream_str.find('\x7b', start_pos)`: drop to the first opening
brace, returning the suffix that starts with it. -/
def findBrace : List Char → Option (List Char)
  | [] => none
  | c :: rest => if c = '\x7b' then some (c :: rest) else findBrace rest

/-- The inner `for` loop: walk counting nested braces from `cnt`,
accumulating the walked characters; when the count returns to zero the
candidate (accumulated characters) and the remainder are returned.
Reaching end of input without balancing yields `none` (the `for`'s
`else: break`). -/
def braceWalk : Int → List Char → List Char → Option (List Char × List Char)
  | _, _, [] => none
  | cnt, acc, c :: rest =>
    let cnt' := if c = '\x7b' then cnt + 1 else if c = '\x7d' then cnt - 1 else cnt
    if cnt' = 0 then some (acc ++ [c], rest)
    else braceWalk cnt' (acc ++ [c]) rest

/-- The scanner's outer `while True` loop, with fuel for termination
(each iteration consumes at least one character, so `length + 1` is
adequate — see `scanFuel_congr`).  A candidate is yielded only when it
parses as valid JSON; scanning resumes after the candidate either
way. -/
def scanFuel : Nat → List Char → List (List Char)
  | 0, _ => []
  | n+1, s =>
    match findBrace s with
    | none => []
    | some rest =>
      match braceWalk 0 [] rest with
      | none => []
      | some (cand, rem) =>
        (if (json_loads cand).isSome then [cand] else []) ++ scanFuel n rem

/-- `_scan_bytes_for_workflow` on the decoded stream. -/
def scan_bytes_for_workflow (s : List Char) : List (List Char) :=
  scanFuel (s.length + 1) s

/-! ## Workflow extraction (`extract_workflow`, lines 756-837)

A file is abstracted by what the extraction code can observe of it:
whether its extension is a video extension, the ffprobe `format.tags`
values (empty when ffprobe is unavailable or fails), the `img.info`
`workflow`/`prompt` entries, the decoded EXIF block, whether
`Image.open` succeeds, whether the raw read succeeds, and the decoded
raw content.  The search processes candidate strings phase by phase:

* video: tag values whose `strip()` starts with a brace;
* image: the two `img.info` keys, then the `workflow:`-prefixed EXIF
  scan (which `break`s after its first valid candidate), then — only
  when no best-so-far exists — the full EXIF scan, and finally
* for every file, the raw-content scan.

A "ui" candidate is returned immediately; an "api" candidate is stored
as best-so-far if none is stored yet.  `extractT` also returns the
trace of classified candidates the search encountered, in order. -/

inductive PhaseMode where
  | normal
  | firstOnly
  | onlyIfNoBest
  deriving DecidableEq

structure Phase where
  cands : List (List Char)
  mode : PhaseMode

structure FileView where
  isVideo : Bool
  probeTagValues : List (List Char)
  infoWorkflow : Option (List Char)
  infoPrompt : Option (List Char)
  exifData : Option (List Char)
  imageOpenOk : Bool
  rawReadOk : Bool
  rawContent : List Char

/-- Python `str.strip()` on the left, restricted to the ASCII
whitespace characters. -/
def pyLStrip (s : List Char) : List Char :=
  s.dropWhile (fun c =>
    c = ' ' ∨ c = '\t' ∨ c = '\n' ∨ c = '\r' ∨ c = '\x0b' ∨ c = '\x0c')

/-- `isinstance(value, str) and value.strip().startswith('\x7b')`. -/
def startsWithOpenBrace (v : List Char) : Bool :=
  match pyLStrip v with
  | c :: _ => c = '\x7b'
  | [] => false

/-- `exif_str.find(pat)`: index of the first occurrence of `pat`. -/
def findSub (pat : List Char) : List Char → Option Nat
  | [] => if pat.isEmpty then some 0 else none
  | c :: rest =>
    if pat.isPrefixOf (c :: rest) then some 0
    else (findSub pat rest).map (· + 1)

/-- Process one list of candidate strings with the `update_best`
semantics: a "ui" candidate ends the search (flag `true`), an "api"
candidate is retained when no best exists yet, an unclassifiable
candidate is skipped.  Returns the best-so-far, the stop flag, and the
trace of classified candidates processed. -/
def runCands (best : Option JVal) :
    List (List Char) → Option JVal × Bool × List (JVal × WfType)
  | [] => (best, false, [])
  | c :: rest =>
    match validate_and_get_workflow c with
    | none => runCands best rest
    | some (wf, WfType.ui) => (some wf, true, [(wf, WfType.ui)])
    | some (wf, WfType.api) =>
      let best' := if best.isSome then best else some wf
      let r := runCands best' rest
      (r.1, r.2.1, (wf, WfType.api) :: r.2.2)

/-- Like `runCands` but `break`s after the first valid candidate — the
`workflow:`-prefix EXIF scan (line 816). -/
def runCandsFirst (best : Option JVal) :
    List (List Char) → Option JVal × Bool × List (JVal × WfType)
  | [] => (best, false, [])
  | c :: rest =>
    match validate_and_get_workflow c with
    | none => runCandsFirst best rest
    | some (wf, WfType.ui) => (some wf, true, [(wf, WfType.ui)])
    | some (wf, WfType.api) =>
      ((if best.isSome then best else some wf), false, [(wf, WfType.api)])

/-- The extraction loop over the phases: a phase in `onlyIfNoBest` mode
is skipped when a best-so-far exists (the guard before the full EXIF
scan, line 820); a "ui" stop returns immediately; otherwise the next
phase continues with the updated best. -/
def runPhases (best : Option JVal) :
    List Phase → Option JVal × List (JVal × WfType)
  | [] => (best, [])
  | ph :: rest =>
    if ph.mode = PhaseMode.onlyIfNoBest ∧ best.isSome then runPhases best rest
    else
      let r := (if ph.mode = PhaseMode.firstOnly then runCandsFirst else runCands)
        best ph.cands
      if r.2.1 then (r.1, r.2.2)
      else
        let r2 := runPhases r.1 rest
        (r2.1, r.2.2 ++ r2.2)

/-- The final raw-content scan performed for every file (lines 827-835). -/
def rawPhase (f : FileView) : Phase :=
  ⟨if f.rawReadOk then scan_bytes_for_workflow f.rawContent else [],
   PhaseMode.normal⟩

/-- The candidate phases of `extract_workflow`, in search order. -/
def phases (f : FileView) : List Phase :=
  (if f.isVideo then
    [⟨f.probeTagValues.filter startsWithOpenBrace, PhaseMode.normal⟩]
  else if f.imageOpenOk then
    [⟨(match f.infoWorkflow with
        | some v => if v.isEmpty then [] else [v]
        | none => [])
      ++ (match f.infoPrompt with
        | some v => if v.isEmpty then [] else [v]
        | none => []), PhaseMode.normal⟩,
     ⟨(match f.exifData with
        | some e =>
          match findSub ("workflow:\x7b".toList) e with
          | some i => scan_bytes_for_workflow (e.drop (i + 9))
          | none => []
        | none => []), PhaseMode.firstOnly⟩,
     ⟨(match f.exifData with
        | some e => scan_bytes_for_workflow e
        | none => []), PhaseMode.onlyIfNoBest⟩]
  else []) ++ [rawPhase f]

/-- `extract_workflow` together with the trace of classified candidates
its search encountered. -/
def extractT (f : FileView) : Option JVal × List (JVal × WfType) :=
  runPhases none (phases f)

/-- `extract_workflow(filepath)`: the returned document (or `None`). -/
def extract_workflow (f : FileView) : Option JVal := (extractT f).1

/-- The classified candidates the search encountered, in order. -/
def encounteredCandidates (f : FileView) : List (JVal × WfType) :=
  (extractT f).2

/-- The best-so-far after a phase that found no "ui": the incoming
best, or else the first (api) document of the phase's trace. -/
def orFirstDoc (best : Option JVal) (tr : List (JVal × WfType)) : Option JVal :=
  match best with
  | some b => some b
  | none => (tr.map Prod.fst).head?

/-- The behaviour shared by `runCands` and `runCandsFirst`: if the run
stopped, its trace is an api-only prefix followed by the returned "ui"
document; if it did not stop, the trace is api-only and the result is
the incoming best or, failing that, the first api document of the
trace. -/
def candsRunOut (best : Option JVal)
    (r : Option JVal × Bool × List (JVal × WfType)) : Prop :=
  (r.2.1 = true →
    ∃ xs u, r.2.2 = xs ++ [(u, WfType.ui)]
      ∧ (∀ e ∈ xs, e.2 = WfType.api) ∧ r.1 = some u)
  ∧ (r.2.1 = false →
    (∀ e ∈ r.2.2, e.2 = WfType.api)
      ∧ r.1 = orFirstDoc best r.2.2)

/-! ## Folder keys (`path_to_key` / `key_to_path`, lines 200-208)

`path_to_key` replaces the platform separator by `/` in the relative
path, UTF-8 encodes it and applies `base64.urlsafe_b64encode`;
`key_to_path` applies `base64.urlsafe_b64decode`, decodes and replaces
back.  Paths are embedded as byte sequences (`List Nat`, bytes < 256);
the UTF-8 text encode/decode pair is modelled as the identity on byte
sequences (it round-trips exactly, and its strict-decode failures could
only turn further keys into `None`).  `urlsafe_b64decode` translates
`-` to `+` and `_` to `/` and calls `binascii.a2b_base64` in non-strict
mode, which *discards* characters outside the alphabet; the automaton
below mirrors CPython's `a2b_base64` (quad position, leftover bits,
padding handling, and the final invalid-length / incorrect-padding
errors, which `key_to_path` catches and turns into `None`). -/

def b64alphabet : List Char :=
  "ABCDEFGHIJKLMNOPQRSTUVWXYZabcdefghijklmnopqrstuvwxyz0123456789-_".toList

/-- The urlsafe encoding alphabet. -/
def b64char (n : Nat) : Char := b64alphabet.getD n 'A'

/-- The decoding table after the urlsafe translate: both `+`/`-` map
to 62 and both `/`/`_` map to 63; anything else is not in the table. -/
def b64val (c : Char) : Option Nat :=
  if 'A' ≤ c ∧ c ≤ 'Z' then some (c.toNat - 65)
  else if 'a' ≤ c ∧ c ≤ 'z' then some (c.toNat - 97 + 26)
  else if '0' ≤ c ∧ c ≤ '9' then some (c.toNat - 48 + 52)
  else if c = '+' ∨ c = '-' then some 62
  else if c = '/' ∨ c = '_' then some 63
  else none

/-- `base64.urlsafe_b64encode` on a byte sequence. -/
def b64encodeBytes : List Nat → List Char
  | [] => []
  | [b0] => [b64char (b0 / 4), b64char ((b0 % 4) * 16), '=', '=']
  | [b0, b1] => [b64char (b0 / 4), b64char ((b0 % 4) * 16 + b1 / 16),
      b64char ((b1 % 16) * 4), '=']
  | b0 :: b1 :: b2 :: rest =>
      b64char (b0 / 4) :: b64char ((b0 % 4) * 16 + b1 / 16)
        :: b64char ((b1 % 16) * 4 + b2 / 64) :: b64char (b2 % 64)
        :: b64encodeBytes rest

/-- CPython `binascii.a2b_base64`, non-strict mode: invalid characters
are skipped; `=` at quad position ≥ 2 completing a quartet ends the
decode (remaining input ignored); a final quad position of 1 (length
1 mod 4) or 2-3 (incorrect padding) raises — modelled as `none`. -/
def a2b_loop : Nat → Nat → Nat → List Nat → List Char → Option (List Nat)
  | quadPos, _, _, acc, [] => if quadPos = 0 then some acc else none
  | quadPos, leftchar, pads, acc, c :: rest =>
    if c = '=' then
      if 2 ≤ quadPos ∧ 4 ≤ quadPos + (pads + 1) then some acc
      else if 2 ≤ quadPos then a2b_loop quadPos leftchar (pads + 1) acc rest
      else a2b_loop quadPos leftchar pads acc rest
    else
      match b64val c with
      | none => a2b_loop quadPos leftchar pads acc rest
      | some v =>
        match quadPos with
        | 0 => a2b_loop 1 v 0 acc rest
        | 1 => a2b_loop 2 (v % 16) 0 (acc ++ [leftchar * 4 + v / 16]) rest
        | 2 => a2b_loop 3 (v % 4) 0 (acc ++ [leftchar * 16 + v / 4]) rest
        | _ => a2b_loop 0 0 0 (acc ++ [leftchar * 64 + v]) rest

/-- `base64.urlsafe_b64decode` (translate folded into `b64val`). -/
def pyUrlsafeB64decode (s : List Char) : Option (List Nat) :=
  a2b_loop 0 0 0 [] s

/-- `os.sep` as a byte (POSIX: `/`). -/
def os_sep : Nat := 47

/-- Python `str.replace` of one byte by another. -/
def replaceByte (a b : Nat) (s : List Nat) : List Nat :=
  s.map (fun x => if x = a then b else x)

/-- `path_to_key` (lines 200-202). -/
def path_to_key (p : List Nat) : String :=
  if p.isEmpty then "_root_"
  else String.mk (b64encodeBytes (replaceByte os_sep 47 p))

/-- `key_to_path` (lines 204-208): any exception (the base64 padding
errors above, or the strict text decode not modelled here) is caught
and yields `None`. -/
def key_to_path (k : String) : Option (List Nat) :=
  if k = "_root_" then some []
  else
    match pyUrlsafeB64decode k.toList with
    | some bytes => some (replaceByte 47 os_sep bytes)
    | none => none

/-- Syntactic urlsafe-base64 validity: a block of alphabet characters,
at most two `=` padding characters, total length a multiple of four. -/
def isUrlsafeB64Key (k : String) : Bool :=
  (k.toList.length % 4 == 0)
  && ((k.toList.dropWhile (fun c => (b64val c).isSome)).all (fun c => c == '='))
  && (decide ((k.toList.dropWhile (fun c => (b64val c).isSome)).length ≤ 2))

end SmartGallery

namespace SmartGallery

theorem mem_to_add {disk db : FMap} {p : Path} :
    p ∈ to_add disk db ↔ p ∈ mkeys disk ∧ p ∉ mkeys db := by
  simp [to_add, List.mem_filter]

theorem mem_to_delete {disk db : FMap} {p : Path} :
    p ∈ to_delete disk db ↔ p ∈ mkeys db ∧ p ∉ mkeys disk := by
  simp [to_delete, List.mem_filter]

theorem mem_to_update {disk db : FMap} {p : Path} :
    p ∈ to_update disk db ↔
      (p ∈ mkeys disk ∧ p ∈ mkeys db) ∧ pyint (getD db p) < pyint (getD disk p) := by
  simp only [to_update, to_check, List.mem_filter, decide_eq_true_eq]

/-- C1: the sync diff engine partitions paths: `to_add` is exactly
disk-only paths, `to_delete` exactly catalog-only paths, `to_update`
exactly the common paths whose truncated disk mtime strictly exceeds
the truncated recorded mtime; a path in both maps with equal truncated
mtimes is in none of the three sets, and the three sets are pairwise
disjoint. -/
theorem diff_engine_partitions (disk db : FMap) (p : Path) :
    (p ∈ to_add disk db ↔ p ∈ mkeys disk ∧ p ∉ mkeys db)
    ∧ (p ∈ to_delete disk db ↔ p ∈ mkeys db ∧ p ∉ mkeys disk)
    ∧ (p ∈ to_update disk db ↔
        (p ∈ mkeys disk ∧ p ∈ mkeys db) ∧ pyint (getD db p) < pyint (getD disk p))
    ∧ (p ∈ mkeys disk → p ∈ mkeys db → pyint (getD disk p) = pyint (getD db p) →
        p ∉ to_add disk db ∧ p ∉ to_delete disk db ∧ p ∉ to_update disk db)
    ∧ ¬(p ∈ to_add disk db ∧ p ∈ to_delete disk db)
    ∧ ¬(p ∈ to_add disk db ∧ p ∈ to_update disk db)
    ∧ ¬(p ∈ to_delete disk db ∧ p ∈ to_update disk db) := by
  refine ⟨mem_to_add, mem_to_delete, mem_to_update, ?_, ?_, ?_, ?_⟩
  · intro h1 h2 heq
    refine ⟨?_, ?_, ?_⟩
    · rw [mem_to_add]; rintro ⟨-, hn⟩; exact hn h2
    · rw [mem_to_delete]; rintro ⟨-, hn⟩; exact hn h1
    · rw [mem_to_update]; rintro ⟨-, hlt⟩; omega
  · rintro ⟨ha, hd⟩
    exact (mem_to_add.mp ha).2 (mem_to_delete.mp hd).1
  · rintro ⟨ha, hu⟩
    exact (mem_to_add.mp ha).2 ((mem_to_update.mp hu).1).2
  · rintro ⟨hd, hu⟩
    exact (mem_to_delete.mp hd).2 ((mem_to_update.mp hu).1).1

/-- Witness for `diff_engine_partitions`: a concrete pair of maps with a
disk-only path, a catalog-only path, a path updated on disk, and a path
whose mtime changed only within the same whole second. -/
theorem diff_engine_partitions_witness :
    ("a" ∈ to_add [("a", mkRat 3 1), ("c", mkRat 6 5), ("d", mkRat 5 2)] [("b", mkRat 1 1), ("c", mkRat 19 10), ("d", mkRat 6 5)])
    ∧ ("c" ∉ to_add [("a", mkRat 3 1), ("c", mkRat 6 5), ("d", mkRat 5 2)] [("b", mkRat 1 1), ("c", mkRat 19 10), ("d", mkRat 6 5)]
       ∧ "c" ∉ to_delete [("a", mkRat 3 1), ("c", mkRat 6 5), ("d", mkRat 5 2)] [("b", mkRat 1 1), ("c", mkRat 19 10), ("d", mkRat 6 5)]
       ∧ "c" ∉ to_update [("a", mkRat 3 1), ("c", mkRat 6 5), ("d", mkRat 5 2)] [("b", mkRat 1 1), ("c", mkRat 19 10), ("d", mkRat 6 5)])
    ∧ ("d" ∈ to_update [("a", mkRat 3 1), ("c", mkRat 6 5), ("d", mkRat 5 2)] [("b", mkRat 1 1), ("c", mkRat 19 10), ("d", mkRat 6 5)]) := by
  refine ⟨?_, ?_, ?_⟩
  · exact (diff_engine_partitions _ _ "a").1.mpr (by decide)
  · exact (diff_engine_partitions _ _ "c").2.2.2.1 (by decide) (by decide) (by decide)
  · exact (diff_engine_partitions _ _ "d").2.2.1.mpr (by decide)

theorem any_isUpsert_map_delete (ds : List Path) :
    ((ds.map DbOp.delete).any (fun o => !isDeleteOp o)) = false := by
  induction ds with
  | nil => rfl
  | cons d ds ih =>
      simp only [List.map_cons, List.any_cons, ih, Bool.or_false]
      rfl

/-- C2 counterexample: with one path to add and one to delete, the sync
pass issues the upsert first and the deletion last, so it is not the
case that every catalog deletion precedes the insert/replace work. -/
theorem sync_pass_deletes_are_not_first :
    deletes_before_upserts
      (fullSyncOps (fun p => some ⟨p, mkRat 1 1⟩)
        [("a", mkRat 1 1)] [("b", mkRat 0 1)]) = false := by
  decide

/-- C2 (amended): within a single sync pass every insert/replace is
issued before any catalog deletion; deletions form the final block of
the pass's write sequence (the claim had the two phases in the
opposite order). -/
theorem sync_pass_upserts_precede_deletes
    (worker : Path → Option FileRec) (disk db : FMap) :
    upserts_before_deletes (fullSyncOps worker disk db) = true := by
  unfold fullSyncOps upserts_before_deletes
  generalize (files_to_process disk db).filterMap worker = rs
  induction rs with
  | nil =>
      rw [List.map_nil, List.nil_append]
      cases hds : to_delete disk db with
      | nil => rfl
      | cons d ds =>
          rw [List.map_cons]
          rw [show List.dropWhile (fun o => !isDeleteOp o)
                (DbOp.delete d :: List.map DbOp.delete ds)
              = DbOp.delete d :: List.map DbOp.delete ds from rfl]
          rw [← List.map_cons, any_isUpsert_map_delete]
          rfl
  | cons r rs ih =>
      rw [List.map_cons, List.cons_append]
      rw [show List.dropWhile (fun o => !isDeleteOp o)
            (DbOp.upsert r ::
              (List.map DbOp.upsert rs ++ List.map DbOp.delete (to_delete disk db)))
          = List.dropWhile (fun o => !isDeleteOp o)
            (List.map DbOp.upsert rs ++ List.map DbOp.delete (to_delete disk db))
          from rfl]
      exact ih

/-- C9: an exception in `process_single_file` for one path (a worker
returning `None`, logged and skipped) does not affect the other paths:
every work-list path whose worker succeeds still has its row upserted,
and every upsert of the pass comes from a succeeding work-list path —
so a failing path contributes no catalog write while all others are
committed. -/
theorem worker_failure_isolated (disk db : FMap)
    (worker : Path → Option FileRec)
    (hw : ∀ p r, worker p = some r → r.path = p) :
    (∀ p ∈ files_to_process disk db, ∀ r, worker p = some r →
        DbOp.upsert r ∈ fullSyncOps worker disk db)
    ∧ (∀ r, DbOp.upsert r ∈ fullSyncOps worker disk db →
        r.path ∈ files_to_process disk db ∧ worker r.path = some r) := by
  constructor
  · intro p hp r hr
    refine List.mem_append_left _ ?_
    exact List.mem_map_of_mem _ (List.mem_filterMap.mpr ⟨p, hp, hr⟩)
  · intro r hr
    rcases List.mem_append.mp hr with h | h
    · rcases List.mem_map.mp h with ⟨r', hr', heq⟩
      cases heq
      rcases List.mem_filterMap.mp hr' with ⟨p, hp, hw'⟩
      have := hw p r hw'
      subst this
      exact ⟨hp, hw'⟩
    · rcases List.mem_map.mp h with ⟨q, -, heq⟩
      cases heq

/-- Witness for `worker_failure_isolated`: a work list of five paths
where the worker for `p3` fails; `p1`'s row is still upserted and no
write of the pass refers to `p3`. -/
theorem worker_failure_isolated_witness :
    (DbOp.upsert ⟨"p1", mkRat 1 1⟩ ∈
      fullSyncOps (fun p => if p = "p3" then none else some ⟨p, mkRat 1 1⟩)
        [("p1", mkRat 1 1), ("p2", mkRat 1 1), ("p3", mkRat 1 1),
         ("p4", mkRat 1 1), ("p5", mkRat 1 1)] [])
    ∧ (∀ r, DbOp.upsert r ∈
        fullSyncOps (fun p => if p = "p3" then none else some ⟨p, mkRat 1 1⟩)
          [("p1", mkRat 1 1), ("p2", mkRat 1 1), ("p3", mkRat 1 1),
           ("p4", mkRat 1 1), ("p5", mkRat 1 1)] [] →
        r.path ≠ "p3") := by
  have hw : ∀ p r, (if p = "p3" then none else some (⟨p, mkRat 1 1⟩ : FileRec)) = some r →
      r.path = p := by
    intro p r h
    by_cases hp : p = "p3" <;> simp [hp] at h
    rw [← h]
  constructor
  · exact (worker_failure_isolated _ _ _ hw).1 "p1" (by decide) _ (by decide)
  · intro r hr hpath
    have h2 := ((worker_failure_isolated _ _ _ hw).2 r hr).2
    rw [hpath] at h2
    simp at h2

theorem lookup_cons (k : Path) (v : ℚ) (m : FMap) (q : Path) :
    (((k, v)) :: m).lookup q = if q = k then some v else m.lookup q := by
  by_cases h : q = k
  · simp [List.lookup, h]
  · have hb : (q == k) = false := by simpa using h
    simp [List.lookup, hb, h]

theorem lookup_eq_none_of_not_mem {m : FMap} {q : Path} (h : q ∉ mkeys m) :
    m.lookup q = none := by
  induction m with
  | nil => rfl
  | cons e m ih =>
      obtain ⟨k, v⟩ := e
      simp only [mkeys, List.map_cons, List.mem_cons, not_or] at h
      rw [lookup_cons, if_neg h.1]
      exact ih (by simpa [mkeys] using h.2)

theorem lookup_append_singleton_other (db : FMap) (k : Path) (v : ℚ)
    (q : Path) (h : q ≠ k) :
    (db ++ [(k, v)]).lookup q = db.lookup q := by
  induction db with
  | nil => rw [List.nil_append, lookup_cons, if_neg h]
  | cons e db ih =>
      obtain ⟨k', v'⟩ := e
      rw [List.cons_append, lookup_cons, lookup_cons]
      by_cases hq : q = k' <;> simp [hq, ih]

theorem mkeys_mapReplace (db : FMap) (p : Path) (v : ℚ) :
    mkeys (db.map (fun e => if e.1 = p then (e.1, v) else e)) = mkeys db := by
  induction db with
  | nil => rfl
  | cons e db ih =>
      obtain ⟨k, v'⟩ := e
      by_cases he : k = p <;> simp only [mkeys, List.map_cons] at ih ⊢ <;>
        simp [he, ih]

theorem lookup_mapReplace_self (db : FMap) (p : Path) (v : ℚ)
    (hp : p ∈ mkeys db) :
    (db.map (fun e => if e.1 = p then (e.1, v) else e)).lookup p = some v := by
  induction db with
  | nil => simp [mkeys] at hp
  | cons e db ih =>
      obtain ⟨k, v'⟩ := e
      by_cases he : k = p
      · simp only [List.map_cons, if_pos he]
        rw [lookup_cons, if_pos he.symm]
      · simp only [List.map_cons, if_neg he]
        rw [lookup_cons, if_neg (fun hq => he hq.symm)]
        refine ih ?_
        simp only [mkeys, List.map_cons, List.mem_cons] at hp
        rcases hp with hp | hp
        · exact absurd hp.symm he
        · simpa [mkeys] using hp

theorem lookup_mapReplace_other (db : FMap) (p : Path) (v : ℚ) (q : Path)
    (h : q ≠ p) :
    (db.map (fun e => if e.1 = p then (e.1, v) else e)).lookup q
      = db.lookup q := by
  induction db with
  | nil => rfl
  | cons e db ih =>
      obtain ⟨k, v'⟩ := e
      by_cases he : k = p
      · simp only [List.map_cons, if_pos he]
        rw [lookup_cons, lookup_cons, if_neg (he ▸ h), if_neg (he ▸ h), ih]
      · simp only [List.map_cons, if_neg he]
        rw [lookup_cons, lookup_cons, ih]

theorem mem_mkeys_upsertRec (db : FMap) (r : FileRec) (q : Path) :
    q ∈ mkeys (upsertRec db r) ↔ q ∈ mkeys db ∨ q = r.path := by
  unfold upsertRec
  by_cases hp : r.path ∈ mkeys db
  · rw [if_pos hp, mkeys_mapReplace]
    constructor
    · exact Or.inl
    · rintro (h | h)
      · exact h
      · rwa [h]
  · rw [if_neg hp]
    simp [mkeys]

theorem lookup_upsertRec_self (db : FMap) (r : FileRec) :
    (upsertRec db r).lookup r.path = some r.mtime := by
  unfold upsertRec
  by_cases hp : r.path ∈ mkeys db
  · rw [if_pos hp]
    exact lookup_mapReplace_self db r.path r.mtime hp
  · rw [if_neg hp]
    have : db.lookup r.path = none := lookup_eq_none_of_not_mem hp
    induction db with
    | nil => rw [List.nil_append, lookup_cons, if_pos rfl]
    | cons e db ih =>
        obtain ⟨k, v⟩ := e
        rw [lookup_cons, if_neg] at this
        · rw [List.cons_append, lookup_cons, if_neg, ih _ this]
          · intro hmem
            exact hp (by simp [mkeys]; right; simpa [mkeys] using hmem)
          · intro hq
            exact hp (by simp [mkeys, hq])
        · intro hq
          exact hp (by simp [mkeys, hq])

theorem lookup_upsertRec_other (db : FMap) (r : FileRec) (q : Path)
    (h : q ≠ r.path) :
    (upsertRec db r).lookup q = db.lookup q := by
  unfold upsertRec
  by_cases hp : r.path ∈ mkeys db
  · rw [if_pos hp]
    exact lookup_mapReplace_other db r.path r.mtime q h
  · rw [if_neg hp]
    exact lookup_append_singleton_other db r.path r.mtime q h

theorem mem_mkeys_applyUpserts (rs : List FileRec) (db : FMap) (q : Path) :
    q ∈ mkeys (applyOps db (rs.map DbOp.upsert)) ↔
      q ∈ mkeys db ∨ q ∈ rs.map FileRec.path := by
  induction rs generalizing db with
  | nil => simp [applyOps]
  | cons r rs ih =>
      simp only [List.map_cons, applyOps, List.foldl_cons, applyOp]
      rw [show List.foldl applyOp (upsertRec db r) (rs.map DbOp.upsert)
            = applyOps (upsertRec db r) (rs.map DbOp.upsert) from rfl]
      rw [ih, mem_mkeys_upsertRec]
      simp only [List.mem_cons]
      tauto

theorem lookup_applyUpserts_not_mem (rs : List FileRec) (db : FMap) (q : Path)
    (h : q ∉ rs.map FileRec.path) :
    (applyOps db (rs.map DbOp.upsert)).lookup q = db.lookup q := by
  induction rs generalizing db with
  | nil => rfl
  | cons r rs ih =>
      simp only [List.map_cons, List.mem_cons, not_or] at h
      simp only [List.map_cons, applyOps, List.foldl_cons, applyOp]
      rw [show List.foldl applyOp (upsertRec db r) (rs.map DbOp.upsert)
            = applyOps (upsertRec db r) (rs.map DbOp.upsert) from rfl]
      rw [ih _ h.2, lookup_upsertRec_other db r q h.1]

theorem lookup_applyUpserts_mem (rs : List FileRec) (db : FMap) (r : FileRec)
    (hnd : (rs.map FileRec.path).Nodup) (hr : r ∈ rs) :
    (applyOps db (rs.map DbOp.upsert)).lookup r.path = some r.mtime := by
  induction rs generalizing db with
  | nil => cases hr
  | cons r' rs ih =>
      simp only [List.map_cons, List.nodup_cons] at hnd
      simp only [List.map_cons, applyOps, List.foldl_cons, applyOp]
      rw [show List.foldl applyOp (upsertRec db r') (rs.map DbOp.upsert)
            = applyOps (upsertRec db r') (rs.map DbOp.upsert) from rfl]
      rcases List.mem_cons.mp hr with heq | hmem
      · subst heq
        rw [lookup_applyUpserts_not_mem rs _ r.path hnd.1]
        exact lookup_upsertRec_self db r
      · exact ih _ hnd.2 hmem

theorem mem_mkeys_applyDeletes (ds : List Path) (db : FMap) (q : Path) :
    q ∈ mkeys (applyOps db (ds.map DbOp.delete)) ↔ q ∈ mkeys db ∧ q ∉ ds := by
  induction ds generalizing db with
  | nil => simp [applyOps]
  | cons d ds ih =>
      simp only [List.map_cons, applyOps, List.foldl_cons, applyOp]
      rw [show List.foldl applyOp (db.filter fun e => decide (e.1 ≠ d)) (ds.map DbOp.delete)
            = applyOps (db.filter fun e => decide (e.1 ≠ d)) (ds.map DbOp.delete) from rfl]
      rw [ih]
      simp only [mkeys, List.mem_map, List.mem_filter, decide_eq_true_eq, List.mem_cons]
      constructor
      · rintro ⟨⟨e, ⟨he, hed⟩, hfst⟩, hds⟩
        refine ⟨⟨e, he, hfst⟩, ?_⟩
        rintro (h | h)
        · exact hed (hfst.trans h)
        · exact hds h
      · rintro ⟨⟨e, he, hfst⟩, hnot⟩
        push_neg at hnot
        exact ⟨⟨e, ⟨he, hfst ▸ hnot.1⟩, hfst⟩, hnot.2⟩

theorem lookup_filter_ne (db : FMap) (d : Path) (q : Path) (h : q ≠ d) :
    (db.filter (fun e => decide (e.1 ≠ d))).lookup q = db.lookup q := by
  induction db with
  | nil => rfl
  | cons e db ih =>
      obtain ⟨k, v⟩ := e
      by_cases hkd : k = d
      · rw [show ((k, v) :: db).filter (fun e => decide (e.1 ≠ d))
              = db.filter (fun e => decide (e.1 ≠ d)) from by
            simp [List.filter_cons, hkd]]
        rw [ih, lookup_cons, if_neg (fun hq => h (hq.trans hkd))]
      · rw [show ((k, v) :: db).filter (fun e => decide (e.1 ≠ d))
              = (k, v) :: db.filter (fun e => decide (e.1 ≠ d)) from by
            simp [List.filter_cons, hkd]]
        rw [lookup_cons, lookup_cons, ih]

theorem lookup_applyDeletes_not_mem (ds : List Path) (db : FMap) (q : Path)
    (h : q ∉ ds) :
    (applyOps db (ds.map DbOp.delete)).lookup q = db.lookup q := by
  induction ds generalizing db with
  | nil => rfl
  | cons d ds ih =>
      simp only [List.mem_cons, not_or] at h
      simp only [List.map_cons, applyOps, List.foldl_cons, applyOp]
      rw [show List.foldl applyOp (db.filter fun e => decide (e.1 ≠ d)) (ds.map DbOp.delete)
            = applyOps (db.filter fun e => decide (e.1 ≠ d)) (ds.map DbOp.delete) from rfl]
      rw [ih _ h.2, lookup_filter_ne db d q h.1]

theorem filterMap_eq_map_of_success (l : List Path) (f : Path → Option FileRec)
    (g : Path → FileRec) (h : ∀ p ∈ l, f p = some (g p)) :
    l.filterMap f = l.map g := by
  induction l with
  | nil => rfl
  | cons p l ih =>
      rw [List.filterMap_cons, h p (List.mem_cons_self p l), List.map_cons,
        ih (fun q hq => h q (List.mem_cons_of_mem p hq))]

/-- C3: if every work-list item of a full sync pass succeeds (the
worker re-stats the same mtime the diff saw, since the disk is
unchanged), then a second full sync pass against the identical disk
map computes empty `to_add`, `to_update` and `to_delete` sets, issues
zero catalog writes, and — since `create_thumbnail` is only invoked for
work-list paths — renders zero thumbnails. -/
theorem full_sync_idempotent (disk db : FMap)
    (worker worker2 : Path → Option FileRec)
    (hashOf : Path → String) (cache : List String)
    (hdisk : (mkeys disk).Nodup) (hdb : (mkeys db).Nodup)
    (hw : ∀ p ∈ files_to_process disk db, worker p = some ⟨p, getD disk p⟩) :
    to_add disk (dbAfterFullSync worker disk db) = []
    ∧ to_update disk (dbAfterFullSync worker disk db) = []
    ∧ to_delete disk (dbAfterFullSync worker disk db) = []
    ∧ files_to_process disk (dbAfterFullSync worker disk db) = []
    ∧ fullSyncOps worker2 disk (dbAfterFullSync worker disk db) = []
    ∧ syncPassRenders hashOf cache disk (dbAfterFullSync worker disk db) = [] := by
  have hwl_nodup : (files_to_process disk db).Nodup := by
    refine List.Nodup.append (hdisk.filter _) ((hdisk.filter _).filter _) ?_
    intro q hq1 hq2
    exact (mem_to_add.mp hq1).2 ((mem_to_update.mp hq2).1).2
  have hrs : (files_to_process disk db).filterMap worker
      = (files_to_process disk db).map (fun p => (⟨p, getD disk p⟩ : FileRec)) :=
    filterMap_eq_map_of_success _ _ _ hw
  have hpaths : ((files_to_process disk db).map
        (fun p => (⟨p, getD disk p⟩ : FileRec))).map FileRec.path
      = files_to_process disk db := by
    rw [List.map_map]
    exact List.map_id'' (fun p => rfl) (files_to_process _ _)
  have hsplit : dbAfterFullSync worker disk db
      = applyOps
          (applyOps db (((files_to_process disk db).map
            (fun p => (⟨p, getD disk p⟩ : FileRec))).map DbOp.upsert))
          ((to_delete disk db).map DbOp.delete) := by
    unfold dbAfterFullSync fullSyncOps
    rw [hrs]
    unfold applyOps
    rw [List.foldl_append]
  have hmemdb' : ∀ q, q ∈ mkeys (dbAfterFullSync worker disk db) ↔ q ∈ mkeys disk := by
    intro q
    rw [hsplit, mem_mkeys_applyDeletes, mem_mkeys_applyUpserts, hpaths]
    constructor
    · rintro ⟨hq1 | hq2, hdel⟩
      · by_contra hnd
        exact hdel (mem_to_delete.mpr ⟨hq1, hnd⟩)
      · rcases List.mem_append.mp hq2 with h | h
        · exact (mem_to_add.mp h).1
        · exact ((mem_to_update.mp h).1).1
    · intro hq
      refine ⟨?_, fun hdel => (mem_to_delete.mp hdel).2 hq⟩
      by_cases hqdb : q ∈ mkeys db
      · exact Or.inl hqdb
      · exact Or.inr (List.mem_append_left _ (mem_to_add.mpr ⟨hq, hqdb⟩))
  have hge : ∀ q ∈ mkeys disk,
      pyint (getD disk q) ≤ pyint (getD (dbAfterFullSync worker disk db) q) := by
    intro q hq
    have hqnotdel : q ∉ to_delete disk db :=
      fun hdel => (mem_to_delete.mp hdel).2 hq
    by_cases hqwl : q ∈ files_to_process disk db
    · have hrmem : (⟨q, getD disk q⟩ : FileRec) ∈ (files_to_process disk db).map
          (fun p => (⟨p, getD disk p⟩ : FileRec)) := List.mem_map_of_mem _ hqwl
      have hlook := lookup_applyUpserts_mem
        ((files_to_process disk db).map (fun p => (⟨p, getD disk p⟩ : FileRec)))
        db ⟨q, getD disk q⟩ (hpaths.symm ▸ hwl_nodup) hrmem
      have : getD (dbAfterFullSync worker disk db) q = getD disk q := by
        unfold getD
        rw [hsplit, lookup_applyDeletes_not_mem _ _ _ hqnotdel, hlook]
        rfl
      rw [this]
    · have hlook : (dbAfterFullSync worker disk db).lookup q = db.lookup q := by
        rw [hsplit, lookup_applyDeletes_not_mem _ _ _ hqnotdel,
          lookup_applyUpserts_not_mem _ db q (by rwa [hpaths])]
      have hqdb : q ∈ mkeys db := by
        by_contra hqdb
        exact hqwl (List.mem_append_left _ (mem_to_add.mpr ⟨hq, hqdb⟩))
      have hqnu : q ∉ to_update disk db :=
        fun hu => hqwl (List.mem_append_right _ hu)
      have hnlt : ¬ pyint (getD db q) < pyint (getD disk q) :=
        fun hlt => hqnu (mem_to_update.mpr ⟨⟨hq, hqdb⟩, hlt⟩)
      have : getD (dbAfterFullSync worker disk db) q = getD db q := by
        unfold getD
        rw [hlook]
      rw [this]
      omega
  have h1 : to_add disk (dbAfterFullSync worker disk db) = [] := by
    rw [to_add, List.filter_eq_nil_iff]
    intro q hq
    simp only [decide_eq_true_eq, not_not]
    exact (hmemdb' q).mpr hq
  have h2 : to_update disk (dbAfterFullSync worker disk db) = [] := by
    rw [to_update, List.filter_eq_nil_iff]
    intro q hq
    have hqd : q ∈ mkeys disk := (List.mem_filter.mp hq).1
    simp only [decide_eq_true_eq, not_lt]
    exact hge q hqd
  have h3 : to_delete disk (dbAfterFullSync worker disk db) = [] := by
    rw [to_delete, List.filter_eq_nil_iff]
    intro q hq
    simp only [decide_eq_true_eq, not_not]
    exact (hmemdb' q).mp hq
  have h4 : files_to_process disk (dbAfterFullSync worker disk db) = [] := by
    rw [files_to_process, h1, h2]
    rfl
  have h5 : fullSyncOps worker2 disk (dbAfterFullSync worker disk db) = [] := by
    rw [fullSyncOps, h4, h3]
    rfl
  have h6 : syncPassRenders hashOf cache disk (dbAfterFullSync worker disk db) = [] := by
    rw [syncPassRenders, h4]
    rfl
  exact ⟨h1, h2, h3, h4, h5, h6⟩

/-- Witness for `full_sync_idempotent`: one file on disk, an empty
catalog, a worker that succeeds; the second pass does nothing. -/
theorem full_sync_idempotent_witness :
    to_add [("a", mkRat 3 2)]
      (dbAfterFullSync (fun p => some ⟨p, mkRat 3 2⟩) [("a", mkRat 3 2)] []) = []
    ∧ to_update [("a", mkRat 3 2)]
      (dbAfterFullSync (fun p => some ⟨p, mkRat 3 2⟩) [("a", mkRat 3 2)] []) = []
    ∧ to_delete [("a", mkRat 3 2)]
      (dbAfterFullSync (fun p => some ⟨p, mkRat 3 2⟩) [("a", mkRat 3 2)] []) = []
    ∧ files_to_process [("a", mkRat 3 2)]
      (dbAfterFullSync (fun p => some ⟨p, mkRat 3 2⟩) [("a", mkRat 3 2)] []) = []
    ∧ fullSyncOps (fun _ => none) [("a", mkRat 3 2)]
      (dbAfterFullSync (fun p => some ⟨p, mkRat 3 2⟩) [("a", mkRat 3 2)] []) = []
    ∧ syncPassRenders (fun _ => "h") [] [("a", mkRat 3 2)]
      (dbAfterFullSync (fun p => some ⟨p, mkRat 3 2⟩) [("a", mkRat 3 2)] []) = [] := by
  refine full_sync_idempotent [("a", mkRat 3 2)] [] _ (fun _ => none)
    (fun _ => "h") [] (by decide) (by decide) ?_
  intro p hp
  have : p = "a" := by
    rcases List.mem_append.mp hp with h | h
    · have := (mem_to_add.mp h).1
      simpa [mkeys] using this
    · have := ((mem_to_update.mp h).1).1
      simpa [mkeys] using this
  subst this
  decide

/-- C6: the thumbnail cache key is a deterministic digest of
`path + str(mtime)`: identical path and mtime always give the same
cache filename, and (for the md5 digest, modelled as an injective
digest) a different mtime string — in particular an mtime changed by
one second — gives a different cache filename.  File content is not an
argument of the key computation at all. -/
theorem thumbnail_cache_key_deterministic
    (md5hex : String → String) (hinj : Function.Injective md5hex) :
    (∀ p1 s1 p2 s2 ext, p1 = p2 → s1 = s2 →
        thumbCacheFilename md5hex p1 s1 ext = thumbCacheFilename md5hex p2 s2 ext)
    ∧ (∀ p s s' ext, s ≠ s' →
        thumbCacheFilename md5hex p s ext ≠ thumbCacheFilename md5hex p s' ext) := by
  constructor
  · intro p1 s1 p2 s2 ext hp hs
    rw [hp, hs]
  · intro p s s' ext hne heq
    unfold thumbCacheFilename file_hash_for_thumbnail thumbKeyInput at heq
    have hdig : md5hex (p ++ s) = md5hex (p ++ s') := by
      have hdata := congrArg String.data heq
      simp only [String.data_append] at hdata
      have := List.append_cancel_right hdata
      have := List.append_cancel_right this
      exact String.ext this
    have := hinj hdig
    have hdata := congrArg String.data this
    simp only [String.data_append] at hdata
    exact hne (String.ext (List.append_cancel_left hdata))

/-- Witness for `thumbnail_cache_key_deterministic`: with the identity
as (injective) digest, mtime strings differing by one second produce
different cache filenames. -/
theorem thumbnail_cache_key_deterministic_witness :
    thumbCacheFilename (fun s => s) "x" "100.0" "webp"
      ≠ thumbCacheFilename (fun s => s) "x" "101.0" "webp" :=
  (thumbnail_cache_key_deterministic (fun s => s) (fun _ _ h => h)).2
    "x" "100.0" "101.0" "webp" (by decide)

/-- C7: when the content hash already has an artifact in the thumbnail
cache directory, the caller's glob guard skips `create_thumbnail`
entirely: no render is performed and the cache directory — in
particular the existing artifact's bytes — is unchanged, whatever the
renderer would have done. -/
theorem renderer_noop_on_existing_artifact
    (cache : List (String × ℕ)) (fileHash : String)
    (render : List (String × ℕ) → List (String × ℕ))
    (h : hasArtifact (cache.map Prod.fst) fileHash = true) :
    thumbnailStep cache fileHash render = (cache, false)
    ∧ ∀ name content, (name, content) ∈ cache →
        (name, content) ∈ (thumbnailStep cache fileHash render).1 := by
  have hstep : thumbnailStep cache fileHash render = (cache, false) := by
    unfold thumbnailStep
    rw [if_pos h]
  exact ⟨hstep, fun name content hmem => by rw [hstep]; exact hmem⟩

/-- Witness for `renderer_noop_on_existing_artifact`: an artifact
`h.webp` for hash `h` exists; the step leaves the cache alone and does
not invoke the renderer even though the renderer would overwrite it. -/
theorem renderer_noop_on_existing_artifact_witness :
    thumbnailStep [("h.webp", 7)] "h" (fun c => ("h.webp", 9) :: c)
      = ([("h.webp", 7)], false)
    ∧ ("h.webp", 7) ∈ (thumbnailStep [("h.webp", 7)] "h"
        (fun c => ("h.webp", 9) :: c)).1 := by
  have := renderer_noop_on_existing_artifact [("h.webp", 7)] "h"
    (fun c => ("h.webp", 9) :: c) (by decide)
  exact ⟨this.1, this.2 "h.webp" 7 (by decide)⟩

/-- C8 counterexample: for a static image that decodes successfully,
`create_thumbnail` issues a direct write at the final cache filename
`hash.webp` and performs no rename — the write-to-temp-then-rename
discipline the claim asserts does not hold. -/
theorem create_thumbnail_not_atomic :
    writes_only_temp_names
      (create_thumbnail_fsOps "h" "image" "webp" true false false false false)
      "h.webp" = false
    ∧ (create_thumbnail_fsOps "h" "image" "webp" true false false false false)
        = [FsOp.write "h.webp"] := by
  constructor
  · decide
  · decide

/-- C8 (amended): `create_thumbnail` writes each artifact directly at
its final cache filename `(file_hash).(ext)` with `ext` one of `webp`,
`jpeg`, `gif`; it uses no temporary name and never performs a rename,
so the absent-or-complete invariant is not guaranteed by a rename
discipline. -/
theorem create_thumbnail_writes_directly
    (file_hash file_type thumbnail_format : String)
    (imgOpenOk isAnimated fmtIsGif framesNonempty videoFrameOk : Bool) :
    ∀ op ∈ create_thumbnail_fsOps file_hash file_type thumbnail_format
        imgOpenOk isAnimated fmtIsGif framesNonempty videoFrameOk,
      ∃ e, op = FsOp.write (file_hash ++ "." ++ e)
        ∧ (e = "webp" ∨ e = "jpeg" ∨ e = "gif") := by
  intro op hop
  unfold create_thumbnail_fsOps at hop
  split_ifs at hop <;>
    simp only [List.mem_singleton, List.not_mem_nil] at hop <;>
    (subst hop
     refine ⟨_, rfl, ?_⟩
     first
     | (split_ifs <;> simp)
     | simp)

/-- Witness for `create_thumbnail_writes_directly`: the successful
static-image render consists of exactly one direct write, whose name
the theorem characterises. -/
theorem create_thumbnail_writes_directly_witness :
    ∃ e, FsOp.write "h.webp" = FsOp.write ("h" ++ "." ++ e)
      ∧ (e = "webp" ∨ e = "jpeg" ∨ e = "gif") :=
  create_thumbnail_writes_directly "h" "image" "webp" true false false false false
    (FsOp.write "h.webp") (by decide)

theorem findBrace_append {p : List Char} (r : List Char) (hp : '\x7b' ∉ p) :
    findBrace (p ++ r) = findBrace r := by
  induction p with
  | nil => rfl
  | cons c p ih =>
      simp only [List.mem_cons, not_or] at hp
      rw [List.cons_append, findBrace, if_neg (fun h => hp.1 h.symm)]
      exact ih hp.2

theorem findBrace_none {s : List Char} (hs : '\x7b' ∉ s) : findBrace s = none := by
  induction s with
  | nil => rfl
  | cons c s ih =>
      simp only [List.mem_cons, not_or] at hs
      rw [findBrace, if_neg (fun h => hs.1 h.symm)]
      exact ih hs.2

theorem braceWalk_c1 (t : List Char) :
    braceWalk 0 [] ("\x7b\"a\":1\x7d".toList ++ t)
      = some ("\x7b\"a\":1\x7d".toList, t) := by
  simp [braceWalk, show "\x7b\"a\":1\x7d".toList = ['\x7b', '"', 'a', '"', ':', '1', '\x7d'] from rfl]

theorem braceWalk_rem_length : ∀ (s : List Char) (cnt : Int) (acc cand rem : List Char),
    braceWalk cnt acc s = some (cand, rem) → rem.length < s.length := by
  intro s
  induction s with
  | nil => intro cnt acc cand rem h; cases h
  | cons c s ih =>
      intro cnt acc cand rem h
      rw [braceWalk] at h
      by_cases h0 : (if c = '\x7b' then cnt + 1 else if c = '\x7d' then cnt - 1 else cnt) = 0
      · rw [if_pos h0] at h
        cases h
        simp
      · rw [if_neg h0] at h
        have := ih _ _ _ _ h
        simp only [List.length_cons]
        omega

theorem findBrace_suffix_length : ∀ (s rest : List Char),
    findBrace s = some rest → rest.length ≤ s.length := by
  intro s
  induction s with
  | nil => intro rest h; cases h
  | cons c s ih =>
      intro rest h
      rw [findBrace] at h
      by_cases hc : c = '\x7b'
      · rw [if_pos hc] at h
        cases h
        simp
      · rw [if_neg hc] at h
        have := ih _ h
        simp only [List.length_cons]
        omega

theorem scanFuel_congr : ∀ (n m : Nat) (s : List Char),
    s.length < n → s.length < m → scanFuel n s = scanFuel m s := by
  intro n
  induction n with
  | zero => intro m s h; omega
  | succ n ih =>
      intro m s hn hm
      cases m with
      | zero => omega
      | succ m =>
          rw [scanFuel, scanFuel]
          cases hfb : findBrace s with
          | none => rfl
          | some rest =>
              cases hbw : braceWalk 0 [] rest with
              | none => simp only [hbw]
              | some cr =>
                  obtain ⟨cand, rem⟩ := cr
                  have h1 := findBrace_suffix_length s rest hfb
                  have h2 := braceWalk_rem_length rest 0 [] cand rem hbw
                  simp only [hbw]
                  rw [ih m rem (by omega) (by omega)]

theorem scanFuel_step (n : Nat) (s : List Char) (h : s.length < n) :
    scanFuel n s = match findBrace s with
      | none => []
      | some rest =>
        match braceWalk 0 [] rest with
        | none => []
        | some (cand, rem) =>
          (if (json_loads cand).isSome then [cand] else [])
            ++ scanFuel (rem.length + 1) rem := by
  cases n with
  | zero => omega
  | succ n =>
      rw [scanFuel]
      cases hfb : findBrace s with
      | none => rfl
      | some rest =>
          cases hbw : braceWalk 0 [] rest with
          | none => simp only [hbw]
          | some cr =>
              obtain ⟨cand, rem⟩ := cr
              have h1 := findBrace_suffix_length s rest hfb
              have h2 := braceWalk_rem_length rest 0 [] cand rem hbw
              simp only [hbw]
              rw [scanFuel_congr n (rem.length + 1) rem (by omega) (by omega)]

theorem braceWalk_c2 (t : List Char) :
    braceWalk 0 [] ("\x7b\"nodes\":[]\x7d".toList ++ t)
      = some ("\x7b\"nodes\":[]\x7d".toList, t) := by
  simp [braceWalk, show "\x7b\"nodes\":[]\x7d".toList
    = ['\x7b', '"', 'n', 'o', 'd', 'e', 's', '"', ':', '[', ']', '\x7d'] from rfl]

theorem scanner_robustness_main (p g s : List Char)
    (hp : '\x7b' ∉ p) (hg : '\x7b' ∉ g) (hs : '\x7b' ∉ s) :
    scan_bytes_for_workflow
        (p ++ "\x7b\"a\":1\x7d".toList ++ g ++ "\x7b\"nodes\":[]\x7d".toList ++ s)
      = ["\x7b\"a\":1\x7d".toList, "\x7b\"nodes\":[]\x7d".toList] := by
  rw [scan_bytes_for_workflow]
  rw [scanFuel_step _ _ (by omega)]
  rw [show p ++ "\x7b\"a\":1\x7d".toList ++ g ++ "\x7b\"nodes\":[]\x7d".toList ++ s
      = p ++ ("\x7b\"a\":1\x7d".toList ++ (g ++ ("\x7b\"nodes\":[]\x7d".toList ++ s)))
      from by simp [List.append_assoc]]
  rw [findBrace_append _ hp]
  rw [show findBrace ("\x7b\"a\":1\x7d".toList ++ (g ++ ("\x7b\"nodes\":[]\x7d".toList ++ s)))
      = some ("\x7b\"a\":1\x7d".toList ++ (g ++ ("\x7b\"nodes\":[]\x7d".toList ++ s)))
      from by simp [findBrace, show "\x7b\"a\":1\x7d".toList
        = ['\x7b', '"', 'a', '"', ':', '1', '\x7d'] from rfl]]
  dsimp only
  rw [braceWalk_c1]
  simp only
  rw [if_pos (by decide)]
  rw [scanFuel_step _ _ (by omega)]
  rw [findBrace_append _ hg]
  rw [show findBrace ("\x7b\"nodes\":[]\x7d".toList ++ s)
      = some ("\x7b\"nodes\":[]\x7d".toList ++ s)
      from by simp [findBrace, show "\x7b\"nodes\":[]\x7d".toList
        = ['\x7b', '"', 'n', 'o', 'd', 'e', 's', '"', ':', '[', ']', '\x7d'] from rfl]]
  dsimp only
  rw [braceWalk_c2]
  simp only
  rw [if_pos (by decide)]
  rw [scanFuel_step _ _ (by omega)]
  rw [findBrace_none hs]
  rfl

/-- C4: on a stream `prefix ++ '\x7b'"a":1'\x7d' ++ garbage ++
'\x7b'"nodes":[]'\x7d' ++ suffix` where prefix, garbage and suffix
contain no opening brace, the balanced-brace scanner yields exactly the
two candidates in order, and the second classifies as "ui"; and
whenever the brace walk of the fragment opened by the next found brace
reaches end of input without balancing, the scan yields nothing further
and terminates (the scanner is a total function, so it cannot raise). -/
theorem scanner_robustness :
    (∀ p g s : List Char, '\x7b' ∉ p → '\x7b' ∉ g → '\x7b' ∉ s →
      scan_bytes_for_workflow
          (p ++ "\x7b\"a\":1\x7d".toList ++ g ++ "\x7b\"nodes\":[]\x7d".toList ++ s)
        = ["\x7b\"a\":1\x7d".toList, "\x7b\"nodes\":[]\x7d".toList]
      ∧ (validate_and_get_workflow "\x7b\"nodes\":[]\x7d".toList).map Prod.snd
          = some WfType.ui)
    ∧ (∀ s0 rest : List Char, findBrace s0 = some rest →
        braceWalk 0 [] rest = none → scan_bytes_for_workflow s0 = []) := by
  constructor
  · intro p g s hp hg hs
    exact ⟨scanner_robustness_main p g s hp hg hs, by decide⟩
  · intro s0 rest hfb hbw
    rw [scan_bytes_for_workflow, scanFuel_step _ _ (by omega), hfb]
    dsimp only
    rw [hbw]

/-- Witness for `scanner_robustness`: concrete prefix, garbage and
suffix, and a truncated trailing fragment. -/
theorem scanner_robustness_witness :
    scan_bytes_for_workflow ("pre".toList ++ "\x7b\"a\":1\x7d".toList
        ++ "garb]".toList ++ "\x7b\"nodes\":[]\x7d".toList ++ "suf".toList)
      = ["\x7b\"a\":1\x7d".toList, "\x7b\"nodes\":[]\x7d".toList]
    ∧ (validate_and_get_workflow "\x7b\"nodes\":[]\x7d".toList).map Prod.snd
        = some WfType.ui
    ∧ scan_bytes_for_workflow "zz\x7b\"x\":".toList = [] := by
  refine ⟨(scanner_robustness.1 "pre".toList "garb]".toList "suf".toList
      (by decide) (by decide) (by decide)).1,
    (scanner_robustness.1 "pre".toList "garb]".toList "suf".toList
      (by decide) (by decide) (by decide)).2, ?_⟩
  exact scanner_robustness.2 "zz\x7b\"x\":".toList "\x7b\"x\":".toList
    (by decide) (by decide)

theorem runCands_spec (cs : List (List Char)) (best : Option JVal) :
    candsRunOut best (runCands best cs) := by
  induction cs generalizing best with
  | nil =>
      constructor
      · intro h
        simp [runCands] at h
      · intro _
        refine ⟨by simp [runCands], ?_⟩
        cases best <;> simp [runCands, orFirstDoc]
  | cons c rest ih =>
      cases hv : validate_and_get_workflow c with
      | none =>
          constructor
          · intro h
            simp only [runCands, hv] at h ⊢
            exact (ih best).1 h
          · intro h
            simp only [runCands, hv] at h ⊢
            exact (ih best).2 h
      | some wt =>
          obtain ⟨wf, ty⟩ := wt
          cases ty with
          | ui =>
              constructor
              · intro _
                refine ⟨[], wf, ?_, by simp, ?_⟩ <;> simp [runCands, hv]
              · intro h
                simp [runCands, hv] at h
          | api =>
              have ihr := ih (if best.isSome then best else some wf)
              constructor
              · intro hstop
                simp only [runCands, hv] at hstop ⊢
                obtain ⟨xs, u, hxs, hapi, hres⟩ := ihr.1 hstop
                refine ⟨(wf, WfType.api) :: xs, u, ?_, ?_, hres⟩
                · rw [List.cons_append, hxs]
                · intro e he
                  rcases List.mem_cons.mp he with he | he
                  · rw [he]
                  · exact hapi e he
              · intro hstop
                simp only [runCands, hv] at hstop ⊢
                obtain ⟨hapi, hres⟩ := ihr.2 hstop
                refine ⟨?_, ?_⟩
                · intro e he
                  rcases List.mem_cons.mp he with he | he
                  · rw [he]
                  · exact hapi e he
                · rw [hres]
                  cases best with
                  | some b => simp [orFirstDoc]
                  | none => simp [orFirstDoc]

theorem runCandsFirst_spec (cs : List (List Char)) (best : Option JVal) :
    candsRunOut best (runCandsFirst best cs) := by
  induction cs generalizing best with
  | nil =>
      constructor
      · intro h
        simp [runCandsFirst] at h
      · intro _
        refine ⟨by simp [runCandsFirst], ?_⟩
        cases best <;> simp [runCandsFirst, orFirstDoc]
  | cons c rest ih =>
      cases hv : validate_and_get_workflow c with
      | none =>
          constructor
          · intro h
            simp only [runCandsFirst, hv] at h ⊢
            exact (ih best).1 h
          · intro h
            simp only [runCandsFirst, hv] at h ⊢
            exact (ih best).2 h
      | some wt =>
          obtain ⟨wf, ty⟩ := wt
          cases ty with
          | ui =>
              constructor
              · intro _
                refine ⟨[], wf, ?_, by simp, ?_⟩ <;> simp [runCandsFirst, hv]
              · intro h
                simp [runCandsFirst, hv] at h
          | api =>
              constructor
              · intro hstop
                simp [runCandsFirst, hv] at hstop
              · intro _
                refine ⟨?_, ?_⟩
                · intro e he
                  simp only [runCandsFirst, hv] at he
                  rcases List.mem_singleton.mp he with he
                  rw [he]
                · simp only [runCandsFirst, hv]
                  cases best with
                  | some b => simp [orFirstDoc]
                  | none => simp [orFirstDoc]

theorem compose_no_stop (best b1 rb2 : Option JVal)
    (tr1 tr2 : List (JVal × WfType))
    (h1 : ∀ e ∈ tr1, e.2 = WfType.api)
    (hb1 : b1 = orFirstDoc best tr1)
    (h2 : (∃ xs u, tr2 = xs ++ [(u, WfType.ui)]
            ∧ (∀ e ∈ xs, e.2 = WfType.api) ∧ rb2 = some u)
        ∨ ((∀ e ∈ tr2, e.2 = WfType.api)
            ∧ rb2 = orFirstDoc b1 tr2)) :
    (∃ xs u, tr1 ++ tr2 = xs ++ [(u, WfType.ui)]
        ∧ (∀ e ∈ xs, e.2 = WfType.api) ∧ rb2 = some u)
    ∨ ((∀ e ∈ tr1 ++ tr2, e.2 = WfType.api)
        ∧ rb2 = orFirstDoc best (tr1 ++ tr2)) := by
  rcases h2 with ⟨xs, u, hxs, hapi2, hres2⟩ | ⟨hapi2, hres2⟩
  · left
    refine ⟨tr1 ++ xs, u, ?_, ?_, hres2⟩
    · rw [hxs, List.append_assoc]
    · intro e he
      rcases List.mem_append.mp he with he | he
      · exact h1 e he
      · exact hapi2 e he
  · right
    refine ⟨?_, ?_⟩
    · intro e he
      rcases List.mem_append.mp he with he | he
      · exact h1 e he
      · exact hapi2 e he
    · rw [hres2]
      subst hb1
      cases best with
      | some b => simp [orFirstDoc]
      | none =>
          cases tr1 with
          | nil => simp [orFirstDoc]
          | cons e tl => simp [orFirstDoc]

theorem runPhases_spec (phs : List Phase) (best : Option JVal) :
    (∃ xs u, (runPhases best phs).2 = xs ++ [(u, WfType.ui)]
        ∧ (∀ e ∈ xs, e.2 = WfType.api)
        ∧ (runPhases best phs).1 = some u)
    ∨ ((∀ e ∈ (runPhases best phs).2, e.2 = WfType.api)
        ∧ (runPhases best phs).1
            = orFirstDoc best (runPhases best phs).2) := by
  induction phs generalizing best with
  | nil =>
      right
      refine ⟨by simp [runPhases], ?_⟩
      cases best <;> simp [runPhases, orFirstDoc]
  | cons ph rest ih =>
      by_cases hskip : ph.mode = PhaseMode.onlyIfNoBest ∧ best.isSome
      · simp only [runPhases, if_pos hskip]
        exact ih best
      · have hrc : candsRunOut best
            ((if ph.mode = PhaseMode.firstOnly then runCandsFirst else runCands)
              best ph.cands) := by
          by_cases hmode : ph.mode = PhaseMode.firstOnly
          · rw [if_pos hmode]
            exact runCandsFirst_spec _ _
          · rw [if_neg hmode]
            exact runCands_spec _ _
        simp only [runPhases, if_neg hskip]
        cases hstop : ((if ph.mode = PhaseMode.firstOnly then runCandsFirst else runCands)
            best ph.cands).2.1
        · rw [if_neg (show ¬(false = true) by simp)]
          dsimp only
          obtain ⟨hapi, hres⟩ := hrc.2 hstop
          exact compose_no_stop best _ _ _ _ hapi hres
            (ih ((if ph.mode = PhaseMode.firstOnly then runCandsFirst else runCands)
              best ph.cands).1)
        · rw [if_pos rfl]
          obtain ⟨xs, u, hxs, hapi, hres⟩ := hrc.1 hstop
          left
          exact ⟨xs, u, hxs, hapi, hres⟩

/-- C5: whenever the search of `extract_workflow` encounters an
"api"-classified candidate at an earlier position and a
"ui"-classified candidate later, the extraction returns the "ui"
document (which, the search stopping there, is the last encountered
candidate); and an "api" candidate is returned only when no "ui"
candidate is ever encountered — the returned document is then the
first api candidate. -/
theorem workflow_format_preference (f : FileView) :
    (∀ xs u a, encounteredCandidates f = xs ++ [(u, WfType.ui)] →
        (a, WfType.api) ∈ xs → extract_workflow f = some u)
    ∧ (∀ a, (a, WfType.api) ∈ encounteredCandidates f →
        (∀ d, (d, WfType.ui) ∉ encounteredCandidates f) →
        ∃ b, extract_workflow f = some b
          ∧ (b, WfType.api) ∈ encounteredCandidates f) := by
  have htr_eq : encounteredCandidates f = (runPhases none (phases f)).2 := rfl
  have hex_eq : extract_workflow f = (runPhases none (phases f)).1 := rfl
  have hspec := runPhases_spec (phases f) none
  constructor
  · intro xs u a hdec hmem
    rcases hspec with ⟨xs2, u2, hxs2, hapi2, hres2⟩ | ⟨hapi, hres⟩
    · have h1 : (encounteredCandidates f).getLast? = some (u, WfType.ui) := by
        rw [hdec]
        exact List.getLast?_concat _
      have h2 : (encounteredCandidates f).getLast? = some (u2, WfType.ui) := by
        rw [htr_eq, hxs2]
        exact List.getLast?_concat _
      rw [h1] at h2
      have hu : u = u2 := by
        injection h2 with h3
        injection h3
      rw [hex_eq, hres2, hu]
    · exfalso
      have hu : (u, WfType.ui) ∈ (runPhases none (phases f)).2 := by
        rw [← htr_eq, hdec]
        exact List.mem_append_right _ (List.mem_singleton.mpr rfl)
      have := hapi _ hu
      simp at this
  · intro a hmem hnoui
    rw [htr_eq] at hmem
    rcases hspec with ⟨xs2, u2, hxs2, hapi2, hres2⟩ | ⟨hapi, hres⟩
    · exfalso
      apply hnoui u2
      rw [htr_eq, hxs2]
      exact List.mem_append_right _ (List.mem_singleton.mpr rfl)
    · cases htr : (runPhases none (phases f)).2 with
      | nil =>
          rw [htr] at hmem
          cases hmem
      | cons e tl =>
          have he : e ∈ (runPhases none (phases f)).2 := by
            rw [htr]
            exact List.mem_cons_self _ _
          have h2 : e.2 = WfType.api := hapi e he
          refine ⟨e.1, ?_, ?_⟩
          · rw [hex_eq, hres, htr, orFirstDoc]
            simp
          · rw [htr_eq, ← h2]
            exact he

/-- Witness for `workflow_format_preference`: a raw file whose byte
scan yields an "api" candidate first and a "ui" candidate second; the
extraction returns the "ui" document. -/
theorem workflow_format_preference_witness :
    encounteredCandidates
        ⟨false, [], none, none, none, false, true,
          "\x7b\"0\":\x7b\"class_type\":\"K\"\x7d\x7d\x7b\"nodes\":[]\x7d".toList⟩
      = [(JVal.jobj [("0".toList,
            JVal.jobj [("class_type".toList, JVal.jstr "K".toList)])], WfType.api),
         (JVal.jobj [("nodes".toList, JVal.jarr [])], WfType.ui)]
    ∧ extract_workflow
        ⟨false, [], none, none, none, false, true,
          "\x7b\"0\":\x7b\"class_type\":\"K\"\x7d\x7d\x7b\"nodes\":[]\x7d".toList⟩
      = some (JVal.jobj [("nodes".toList, JVal.jarr [])]) := by
  refine ⟨rfl, ?_⟩
  exact (workflow_format_preference _).1
    [(JVal.jobj [("0".toList,
        JVal.jobj [("class_type".toList, JVal.jstr "K".toList)])], WfType.api)]
    (JVal.jobj [("nodes".toList, JVal.jarr [])])
    (JVal.jobj [("0".toList,
        JVal.jobj [("class_type".toList, JVal.jstr "K".toList)])])
    rfl
    (List.mem_singleton.mpr rfl)

theorem b64val_b64char_fin : ∀ v : Fin 64, b64val (b64char v.1) = some v.1 := by decide

theorem b64val_b64char {v : Nat} (hv : v < 64) : b64val (b64char v) = some v :=
  b64val_b64char_fin ⟨v, hv⟩

theorem b64char_ne_pad {v : Nat} (hv : v < 64) : b64char v ≠ '=' := by
  intro h
  have h1 := b64val_b64char hv
  rw [h] at h1
  have h2 : b64val '=' = none := by decide
  rw [h2] at h1
  cases h1

theorem b64encode_length_mod : ∀ bs : List Nat, (b64encodeBytes bs).length % 4 = 0 := by
  intro bs
  induction bs using b64encodeBytes.induct with
  | case1 => rfl
  | case2 b0 => simp [b64encodeBytes]
  | case3 b0 b1 => simp [b64encodeBytes]
  | case4 b0 b1 b2 rest ih =>
      simp only [b64encodeBytes, List.length_cons]
      omega

theorem a2b_step0 {v : Nat} (hv : v < 64) (lc pads : Nat) (acc : List Nat)
    (rest : List Char) :
    a2b_loop 0 lc pads acc (b64char v :: rest) = a2b_loop 1 v 0 acc rest := by
  rw [a2b_loop, if_neg (b64char_ne_pad hv), b64val_b64char hv]

theorem a2b_step1 {v : Nat} (hv : v < 64) (lc pads : Nat) (acc : List Nat)
    (rest : List Char) :
    a2b_loop 1 lc pads acc (b64char v :: rest)
      = a2b_loop 2 (v % 16) 0 (acc ++ [lc * 4 + v / 16]) rest := by
  rw [a2b_loop, if_neg (b64char_ne_pad hv), b64val_b64char hv]

theorem a2b_step2 {v : Nat} (hv : v < 64) (lc pads : Nat) (acc : List Nat)
    (rest : List Char) :
    a2b_loop 2 lc pads acc (b64char v :: rest)
      = a2b_loop 3 (v % 4) 0 (acc ++ [lc * 16 + v / 4]) rest := by
  rw [a2b_loop, if_neg (b64char_ne_pad hv), b64val_b64char hv]

theorem a2b_step3 {v : Nat} (hv : v < 64) (lc pads : Nat) (acc : List Nat)
    (rest : List Char) :
    a2b_loop 3 lc pads acc (b64char v :: rest)
      = a2b_loop 0 0 0 (acc ++ [lc * 64 + v]) rest := by
  rw [a2b_loop, if_neg (b64char_ne_pad hv), b64val_b64char hv]

theorem a2b_pad2_first (lc : Nat) (acc : List Nat) (rest : List Char) :
    a2b_loop 2 lc 0 acc ('=' :: rest) = a2b_loop 2 lc 1 acc rest := by
  rw [a2b_loop, if_pos rfl, if_neg (by omega), if_pos (by omega)]

theorem a2b_pad2_second (lc : Nat) (acc : List Nat) (rest : List Char) :
    a2b_loop 2 lc 1 acc ('=' :: rest) = some acc := by
  rw [a2b_loop, if_pos rfl, if_pos (by omega)]

theorem a2b_pad3 (lc : Nat) (acc : List Nat) (rest : List Char) :
    a2b_loop 3 lc 0 acc ('=' :: rest) = some acc := by
  rw [a2b_loop, if_pos rfl, if_pos (by omega)]

theorem a2b_encode : ∀ (n : Nat) (bs : List Nat), bs.length ≤ n →
    (∀ b ∈ bs, b < 256) → ∀ acc : List Nat,
    a2b_loop 0 0 0 acc (b64encodeBytes bs) = some (acc ++ bs) := by
  intro n
  induction n with
  | zero =>
      intro bs hlen _ acc
      cases bs with
      | nil => simp [b64encodeBytes, a2b_loop]
      | cons b bs => simp at hlen
  | succ n ih =>
      intro bs hlen hb acc
      match bs with
      | [] => simp [b64encodeBytes, a2b_loop]
      | [b0] =>
          have h0 : b0 < 256 := hb b0 (by simp)
          rw [b64encodeBytes,
            a2b_step0 (show b0 / 4 < 64 by omega),
            a2b_step1 (show (b0 % 4) * 16 < 64 by omega),
            a2b_pad2_first, a2b_pad2_second]
          have hx : b0 / 4 * 4 + (b0 % 4) * 16 / 16 = b0 := by omega
          rw [hx]
      | [b0, b1] =>
          have h0 : b0 < 256 := hb b0 (by simp)
          have h1 : b1 < 256 := hb b1 (by simp)
          rw [b64encodeBytes,
            a2b_step0 (show b0 / 4 < 64 by omega),
            a2b_step1 (show (b0 % 4) * 16 + b1 / 16 < 64 by omega),
            a2b_step2 (show (b1 % 16) * 4 < 64 by omega),
            a2b_pad3]
          have hx : b0 / 4 * 4 + ((b0 % 4) * 16 + b1 / 16) / 16 = b0 := by omega
          have hy : ((b0 % 4) * 16 + b1 / 16) % 16 * 16 + (b1 % 16) * 4 / 4 = b1 := by
            omega
          rw [hx, hy, List.append_assoc]
          rfl
      | b0 :: b1 :: b2 :: rest =>
          have h0 : b0 < 256 := hb b0 (by simp)
          have h1 : b1 < 256 := hb b1 (by simp)
          have h2 : b2 < 256 := hb b2 (by simp)
          rw [b64encodeBytes,
            a2b_step0 (show b0 / 4 < 64 by omega),
            a2b_step1 (show (b0 % 4) * 16 + b1 / 16 < 64 by omega),
            a2b_step2 (show (b1 % 16) * 4 + b2 / 64 < 64 by omega),
            a2b_step3 (show b2 % 64 < 64 by omega)]
          have hx : b0 / 4 * 4 + ((b0 % 4) * 16 + b1 / 16) / 16 = b0 := by omega
          have hy : ((b0 % 4) * 16 + b1 / 16) % 16 * 16
              + ((b1 % 16) * 4 + b2 / 64) / 4 = b1 := by omega
          have hz : ((b1 % 16) * 4 + b2 / 64) % 4 * 64 + b2 % 64 = b2 := by omega
          rw [hx, hy, hz]
          rw [ih rest (by simp at hlen; omega)
            (fun b hbr => hb b (by simp [hbr])) (acc ++ [b0] ++ [b1] ++ [b2])]
          simp

theorem replaceByte_47 (s : List Nat) : replaceByte 47 47 s = s := by
  unfold replaceByte
  induction s with
  | nil => rfl
  | cons x s ih =>
      by_cases hx : x = 47 <;> simp [hx, ih]

theorem path_to_key_ne_root (bs : List Nat) (hbs : bs ≠ []) :
    String.mk (b64encodeBytes bs) ≠ "_root_" := by
  intro h
  have hdata : b64encodeBytes bs = "_root_".toList := congrArg String.data h
  have hlen := b64encode_length_mod bs
  rw [hdata] at hlen
  simp at hlen

/-- C10 (amended): folder-key encoding round-trips — for every byte
path `p`, `key_to_path (path_to_key p) = p`; the empty path maps to
`_root_` and `_root_` maps back to the empty path.  `key_to_path` is a
total function (it never raises), but a key that is neither `_root_`
nor valid urlsafe base64 need not map to `None`: characters outside the
alphabet are discarded by the decoder, so such keys can decode (the
claim's third part fails, see `key_to_path_invalid_decodes`). -/
theorem folder_key_roundtrip (p : List Nat) (hp : ∀ b ∈ p, b < 256) :
    key_to_path (path_to_key p) = some p
    ∧ path_to_key [] = "_root_"
    ∧ key_to_path "_root_" = some [] := by
  refine ⟨?_, rfl, by decide⟩
  cases p with
  | nil => decide
  | cons b0 pr =>
      have hrep : replaceByte os_sep 47 (b0 :: pr) = b0 :: pr := replaceByte_47 _
      rw [path_to_key, if_neg (by simp), hrep, key_to_path,
        if_neg (path_to_key_ne_root (b0 :: pr) (by simp))]
      rw [show (String.mk (b64encodeBytes (b0 :: pr))).toList
          = b64encodeBytes (b0 :: pr) from rfl]
      rw [pyUrlsafeB64decode, a2b_encode (b0 :: pr).length (b0 :: pr) le_rfl hp []]
      rw [List.nil_append]
      dsimp only
      rw [show replaceByte 47 os_sep (b0 :: pr) = b0 :: pr from replaceByte_47 _]

/-- C10 counterexample: the key `!` is neither `_root_` nor valid
urlsafe base64, yet `key_to_path` returns the empty decoded path, not
`None` — `b64decode` silently discards characters outside the
alphabet. -/
theorem key_to_path_invalid_decodes :
    ("!" == "_root_") = false
    ∧ isUrlsafeB64Key "!" = false
    ∧ key_to_path "!" = some [] := by
  refine ⟨by decide, by decide, by decide⟩

/-- Witness for `folder_key_roundtrip`: the byte path `hi/j`. -/
theorem folder_key_roundtrip_witness :
    key_to_path (path_to_key [104, 105, 47, 106]) = some [104, 105, 47, 106]
    ∧ path_to_key [] = "_root_"
    ∧ key_to_path "_root_" = some [] :=
  folder_key_roundtrip [104, 105, 47, 106] (by decide)

end SmartGallery